import Mathlib

/-!
Shallow embedding of the clean-sd-card repository (Go) and verification of its
specification claims.

The repository organizes photo files from an SD card into date-based folders:
it extracts EXIF capture dates, groups files into calendar-day buckets
(`groupFilesByDate`), merges consecutive high-volume days into multi-day event
folders (`detectConsecutiveDays` / `isConsecutiveDay`), copies files with a
given extension (`copyFiles`), removes source files (`removeFiles`), and
deletes orphaned sidecar edit files (`deleteZombieEditFiles`).

Modelling conventions:
* Go strings are Lean `String`s; `strings.EqualFold` is modelled by ASCII case
  folding (`goEqualFold`), which agrees with Go on the ASCII extension names
  the program handles.
* `time.Time` is modelled by `GoTime`: a normalized Gregorian calendar date
  plus an abstract time-of-day component (`tod`).  `AddDate(0, 0, 1)` on a
  normalized date is the next Gregorian calendar day (`nextDay`), and
  `time.Time.After` on same-zone times is lexicographic comparison
  (`timeAfter`).
* Go `int` values (file-count thresholds) are modelled by `Int`.
* The filesystem side of each operation is made explicit: directory listings
  are value parameters, destination-state is threaded through the copy
  functions, and fallible primitives (`copyFile`, `os.Remove`, `os.Stat`)
  take failure oracles as parameters.  The concurrent per-entry goroutines of
  the Go code are independent (no two touch the same path), so the embedding
  executes them in entry order; the aggregate outcomes (counts, error
  multisets, filesystem effects) are the scheduler-independent quantities the
  claims are about.
* Go's map iteration order is unspecified; the embedding of the date map
  (`insertFwd`) keeps first-insertion order.  Every proved property is
  independent of that order (the subsequent exchange sort makes the final
  bucket order independent of the initial one for distinct dates).
-/

/-! ## String helpers (strings / path/filepath) -/

/-- ASCII lower-casing of one character, the fragment of Unicode simple case
folding exercised by `strings.EqualFold` on ASCII extension names. -/
def asciiToLower (c : Char) : Char :=
  if 'A' ≤ c ∧ c ≤ 'Z' then Char.ofNat (c.toNat + 32) else c

/-- Model of Go `strings.EqualFold` restricted to ASCII strings: equality up
to ASCII case. -/
def goEqualFold (a b : String) : Bool :=
  a.toList.map asciiToLower == b.toList.map asciiToLower

/-- Model of Go `path/filepath.Ext` for names without path separators: the
suffix starting at the final dot, including the dot; empty if there is no
dot. -/
def pathExt (s : String) : String :=
  let r := s.toList.reverse
  let afterDot := r.takeWhile (fun c => c ≠ '.')
  if afterDot.length = r.length then "" else String.mk ('.' :: afterDot.reverse)

/-- Model of Go `strings.HasSuffix`. -/
def goHasSuffix (s suf : String) : Bool :=
  suf.toList.isSuffixOf s.toList

/-- Model of Go `strings.TrimSuffix`. -/
def goTrimSuffix (s suf : String) : String :=
  if goHasSuffix s suf then String.mk (s.toList.take (s.toList.length - suf.toList.length))
  else s

/-- Model of Go `path/filepath.Join` on two components.  Only used as an
opaque path constructor; no claim depends on separator details. -/
def joinPath (a b : String) : String := a ++ "/" ++ b

/-- Zero-pad the decimal representation of `n` to at least `width` digits,
as Go's time formatting does for `"2006"`, `"01"` and `"02"`. -/
def padNat (width n : Nat) : String :=
  let s := toString n
  String.mk (List.replicate (width - s.length) '0') ++ s

/-! ## Dates (`time.Time`) -/

/-- Model of a normalized Go `time.Time`: a Gregorian calendar day plus an
abstract time-of-day component (`tod`, the instant within the day). -/
structure GoTime where
  year : Nat
  month : Nat
  day : Nat
  tod : Nat
deriving DecidableEq, Repr

/-- Gregorian leap-year rule (as in Go's `time` package). -/
def isLeapYear (y : Nat) : Bool :=
  (y % 4 == 0 && y % 100 != 0) || y % 400 == 0

/-- Number of days of month `m` of year `y` (Gregorian). -/
def daysInMonth (y m : Nat) : Nat :=
  if m = 2 then (if isLeapYear y then 29 else 28)
  else if m = 4 ∨ m = 6 ∨ m = 9 ∨ m = 11 then 30
  else 31

/-- The calendar day after `t`: Go's `t.AddDate(0, 0, 1)` on a normalized
date. -/
def nextDay (t : GoTime) : GoTime :=
  if t.day < daysInMonth t.year t.month then ⟨t.year, t.month, t.day + 1, t.tod⟩
  else if t.month < 12 then ⟨t.year, t.month + 1, 1, t.tod⟩
  else ⟨t.year + 1, 1, 1, t.tod⟩

/-- Model of `isConsecutiveDay` (fileops.go): whether `date2` is the calendar
day after `date1`, by comparing `date1.AddDate(0, 0, 1).Date()` with
`date2.Date()`. -/
def isConsecutiveDay (date1 date2 : GoTime) : Bool :=
  let n := nextDay date1
  n.year == date2.year && n.month == date2.month && n.day == date2.day

/-- Model of `time.Time.After` for same-zone normalized times: lexicographic
comparison of (year, month, day, time-of-day). -/
def timeAfter (a b : GoTime) : Bool :=
  if a.year ≠ b.year then decide (b.year < a.year)
  else if a.month ≠ b.month then decide (b.month < a.month)
  else if a.day ≠ b.day then decide (b.day < a.day)
  else decide (b.tod < a.tod)

/-- Go `t.Format("20060102")`: the compact calendar date used in destination
folder names. -/
def compactDate (t : GoTime) : String :=
  padNat 4 t.year ++ padNat 2 t.month ++ padNat 2 t.day

/-- Go `t.Format(dateFormat)` with `dateFormat = "200601-02"`: the map key
used to group files by calendar day. -/
def dateKey (t : GoTime) : String :=
  padNat 4 t.year ++ padNat 2 t.month ++ "-" ++ padNat 2 t.day

/-! ## Data model (fileops.go) -/

/-- Model of `fileWithDate`: a file name and its EXIF date. -/
structure fileWithDate where
  name : String
  date : GoTime
deriving DecidableEq, Repr

/-- Model of `dateGroup`: files grouped by date.  `date` is the full
timestamp of the first file inserted into the bucket, as in the Go code. -/
structure dateGroup where
  date : GoTime
  files : List String
deriving DecidableEq, Repr

/-- Model of `groupWithDestDir`: a group of files with their destination
directory. -/
structure groupWithDestDir where
  files : List String
  destDir : String
deriving DecidableEq, Repr

/-! ## Date grouping (`groupFilesByDate`) -/

/-- One step of building the `dateMap` of `groupFilesByDate`: append the
file to the bucket with its date key, or create a new bucket.  The map is
embedded as an association list in first-insertion order (Go's map iteration
order is unspecified; all proved properties are independent of it). -/
def insertFwd (m : List (String × dateGroup)) (fwd : fileWithDate) : List (String × dateGroup) :=
  match m with
  | [] => [(dateKey fwd.date, ⟨fwd.date, [fwd.name]⟩)]
  | (k, g) :: rest =>
    if k = dateKey fwd.date then (k, ⟨g.date, g.files ++ [fwd.name]⟩) :: rest
    else (k, g) :: insertFwd rest fwd

/-- One iteration of the double swap loop of `groupFilesByDate`: if
`groups[i].date.After(groups[j].date)` then swap entries `i` and `j`. -/
def sortPassStep (l : List dateGroup) (i j : Nat) : List dateGroup :=
  match l.get? i, l.get? j with
  | some a, some b => if timeAfter a.date b.date then (l.set i b).set j a else l
  | _, _ => l

/-- The full double loop `for i := range len(groups) for j := range
len(groups)` of `groupFilesByDate` that exchanges out-of-order pairs. -/
def sortGroups (l : List dateGroup) : List dateGroup :=
  (List.range l.length).foldl
    (fun acc i => (List.range l.length).foldl (fun acc2 j => sortPassStep acc2 i j) acc) l

/-- Model of `groupFilesByDate` (fileops.go): group files by their calendar
day (`dateFormat` key), then run the exchange loop on the resulting bucket
list. -/
def groupFilesByDate (filesWithDates : List fileWithDate) : List dateGroup :=
  sortGroups ((filesWithDates.foldl insertFwd []).map (·.2))

/-! ## Consecutive-day clustering (`detectConsecutiveDays`) -/

/-- The inner look-ahead loop of `detectConsecutiveDays` (fileops.go): starting
from the date `last` of the last group already in the run, keep consuming the
next bucket while its date is the following calendar day and it has at least
`thresholdConsecutiveDays` files.  Returns the consumed extension and the
remaining buckets. -/
def takeRun (last : GoTime) (thresholdConsecutiveDays : Int) :
    List dateGroup → List dateGroup × List dateGroup
  | [] => ([], [])
  | g :: t =>
    if isConsecutiveDay last g.date = true ∧ thresholdConsecutiveDays ≤ (g.files.length : Int) then
      let r := takeRun g.date thresholdConsecutiveDays t
      (g :: r.1, r.2)
    else ([], g :: t)

/-- The single-day fallthrough of `detectConsecutiveDays`: a high-volume day
gets its own compact-date folder, a low-volume day goes to the root `"."`. -/
def singleCluster (thresholdOneDay : Int) (g : dateGroup) : groupWithDestDir :=
  if thresholdOneDay ≤ (g.files.length : Int) then ⟨g.files, compactDate g.date⟩
  else ⟨g.files, "."⟩

/-- The cluster emitted for a merged consecutive run `g :: r` (with `r ≠ []`):
all files of the run, destination `firstDate-lastDate` in compact format. -/
def mergedCluster (g : dateGroup) (r : List dateGroup) : groupWithDestDir :=
  ⟨(g :: r).flatMap (·.files),
   compactDate g.date ++ "-" ++ compactDate ((r.getLastD g).date)⟩

theorem takeRun_fst_append_snd (last : GoTime) (thc : Int) :
    ∀ t : List dateGroup, (takeRun last thc t).1 ++ (takeRun last thc t).2 = t := by
  intro t
  induction t generalizing last with
  | nil => simp [takeRun]
  | cons g t ih =>
    by_cases h : isConsecutiveDay last g.date = true ∧ thc ≤ (g.files.length : Int)
    · simp [takeRun, h, ih g.date]
    · simp [takeRun, h]

theorem takeRun_snd_length_le (last : GoTime) (thc : Int) (t : List dateGroup) :
    (takeRun last thc t).2.length ≤ t.length := by
  conv_rhs => rw [← takeRun_fst_append_snd last thc t]
  simp

/-- Model of `detectConsecutiveDays` (fileops.go): scan the date-ordered
buckets left to right; at each bucket with at least
`thresholdConsecutiveDays` files try to extend a run of consecutive days; a
run of two or more buckets is emitted as one merged cluster, otherwise the
bucket falls through to the single-day check. -/
def detectConsecutiveDays (thresholdOneDay thresholdConsecutiveDays : Int) :
    List dateGroup → List groupWithDestDir
  | [] => []
  | g :: t =>
    let run := takeRun g.date thresholdConsecutiveDays t
    if thresholdConsecutiveDays ≤ (g.files.length : Int) ∧ run.1 ≠ [] then
      mergedCluster g run.1 :: detectConsecutiveDays thresholdOneDay thresholdConsecutiveDays run.2
    else
      singleCluster thresholdOneDay g :: detectConsecutiveDays thresholdOneDay thresholdConsecutiveDays t
termination_by l => l.length
decreasing_by
  · exact Nat.lt_succ_of_le (takeRun_snd_length_le _ _ _)
  · exact Nat.lt_succ_self _

/-! ## Lemmas about the run look-ahead -/

/-- The date of the last group of the run so far: the date of the last element
of `t`, or `d` when the run extension `t` is empty. -/
def endDate (d : GoTime) (t : List dateGroup) : GoTime :=
  (t.map (·.date)).getLastD d

theorem endDate_nil (d : GoTime) : endDate d [] = d := rfl

theorem endDate_cons (d : GoTime) (g : dateGroup) (t : List dateGroup) :
    endDate d (g :: t) = endDate g.date t := by
  simp only [endDate, List.map_cons, List.getLastD_cons]

theorem getLast?_cons_eq (g : α) (t : List α) : (g :: t).getLast? = some (t.getLastD g) := by
  induction t generalizing g with
  | nil => rfl
  | cons a t ih => rw [List.getLast?_cons_cons, ih, List.getLastD_cons]

theorem endDate_eq_getLastD (g : dateGroup) (t : List dateGroup) :
    endDate g.date t = (t.getLastD g).date := by
  induction t generalizing g with
  | nil => rfl
  | cons a t ih => rw [endDate_cons, ih, List.getLastD_cons]

theorem takeRun_mem_count (thc : Int) :
    ∀ (t : List dateGroup) (d : GoTime) (g' : dateGroup),
      g' ∈ (takeRun d thc t).1 → thc ≤ (g'.files.length : Int) := by
  intro t
  induction t with
  | nil => intro d g' h; simp [takeRun] at h
  | cons g t ih =>
    intro d g' h
    by_cases hc : isConsecutiveDay d g.date = true ∧ thc ≤ (g.files.length : Int)
    · simp only [takeRun, if_pos hc] at h
      rcases List.mem_cons.mp h with h | h
      · exact h ▸ hc.2
      · exact ih g.date g' h
    · simp [takeRun, if_neg hc] at h

theorem takeRun_append_stop (thc : Int) :
    ∀ (t : List dateGroup) (d : GoTime) (s : dateGroup) (srem X : List dateGroup),
      (takeRun d thc t).2 = s :: srem →
      takeRun d thc (t ++ X) = ((takeRun d thc t).1, s :: (srem ++ X)) := by
  intro t
  induction t with
  | nil => intro d s srem X h; simp [takeRun] at h
  | cons g t ih =>
    intro d s srem X h
    by_cases hc : isConsecutiveDay d g.date = true ∧ thc ≤ (g.files.length : Int)
    · rw [List.cons_append]
      simp only [takeRun, if_pos hc] at h ⊢
      rw [ih g.date s srem X h]
    · rw [List.cons_append]
      simp only [takeRun, if_neg hc] at h ⊢
      cases h
      simp

theorem takeRun_append_all (thc : Int) :
    ∀ (t : List dateGroup) (d : GoTime) (X : List dateGroup),
      (takeRun d thc t).2 = [] →
      takeRun d thc (t ++ X) =
        (t ++ (takeRun (endDate d t) thc X).1, (takeRun (endDate d t) thc X).2) := by
  intro t
  induction t with
  | nil => intro d X _; simp [endDate_nil]
  | cons g t ih =>
    intro d X h
    by_cases hc : isConsecutiveDay d g.date = true ∧ thc ≤ (g.files.length : Int)
    · rw [List.cons_append]
      simp only [takeRun, if_pos hc] at h ⊢
      rw [ih g.date X h, endDate_cons]
      simp
    · simp [takeRun, if_neg hc] at h

theorem takeRun_exact (thc : Int) :
    ∀ (run rest : List dateGroup) (d : GoTime),
      List.Chain (fun x y => isConsecutiveDay x y = true) d (run.map (·.date)) →
      (∀ g ∈ run, thc ≤ (g.files.length : Int)) →
      (∀ q ∈ rest.head?,
        ¬(isConsecutiveDay (endDate d run) q.date = true ∧ thc ≤ (q.files.length : Int))) →
      takeRun d thc (run ++ rest) = (run, rest) := by
  intro run
  induction run with
  | nil =>
    intro rest d _ _ hblock
    cases rest with
    | nil => rfl
    | cons q rest' =>
      have hb := hblock q (by simp)
      rw [List.nil_append]
      show takeRun d thc (q :: rest') = ([], q :: rest')
      rw [takeRun, if_neg]
      exact hb
  | cons g gs ih =>
    intro rest d hchain hcnt hblock
    simp only [List.map_cons, List.chain_cons] at hchain
    rw [List.cons_append]
    rw [takeRun, if_pos ⟨hchain.1, hcnt g (by simp)⟩]
    rw [ih rest g.date hchain.2 (fun g' hg' => hcnt g' (by simp [hg']))]
    rw [← endDate_cons d g gs]
    exact hblock

theorem detect_nil (th1 thc : Int) : detectConsecutiveDays th1 thc [] = [] := by
  rw [detectConsecutiveDays]

theorem detect_cons (th1 thc : Int) (g : dateGroup) (t : List dateGroup) :
    detectConsecutiveDays th1 thc (g :: t) =
      if thc ≤ (g.files.length : Int) ∧ (takeRun g.date thc t).1 ≠ [] then
        mergedCluster g (takeRun g.date thc t).1 ::
          detectConsecutiveDays th1 thc (takeRun g.date thc t).2
      else
        singleCluster th1 g :: detectConsecutiveDays th1 thc t := by
  rw [detectConsecutiveDays]

theorem detect_append_blocked (th1 thc : Int) :
    ∀ (n : Nat) (pre : List dateGroup) (r0 : dateGroup) (rest : List dateGroup),
      pre.length ≤ n →
      (∀ p ∈ pre.getLast?,
        ¬(isConsecutiveDay p.date r0.date = true ∧ thc ≤ (p.files.length : Int))) →
      detectConsecutiveDays th1 thc (pre ++ r0 :: rest) =
        detectConsecutiveDays th1 thc pre ++ detectConsecutiveDays th1 thc (r0 :: rest) := by
  intro n
  induction n with
  | zero =>
    intro pre r0 rest hlen _
    have : pre = [] := List.length_eq_zero.mp (Nat.le_zero.mp hlen)
    subst this
    simp [detect_nil]
  | succ n ih =>
    intro pre r0 rest hlen hblock
    match pre with
    | [] => simp [detect_nil]
    | g :: t =>
      have hlen' : t.length ≤ n := by simp only [List.length_cons] at hlen; omega
      have hsplit := takeRun_fst_append_snd g.date thc t
      have hP : (g :: t).getLast? = some (t.getLastD g) := getLast?_cons_eq g t
      have hb : ¬(isConsecutiveDay (t.getLastD g).date r0.date = true ∧
          thc ≤ ((t.getLastD g).files.length : Int)) := by
        apply hblock
        rw [hP]; rfl
      cases hrem : (takeRun g.date thc t).2 with
      | cons s srem =>
        -- the look-ahead stops inside `t`
        have htail : t ≠ [] := by
          intro h; subst h; simp [takeRun] at hrem
        have hlast_t : t.getLast? = (g :: t).getLast? := by
          cases t with
          | nil => exact absurd rfl htail
          | cons a t' => rw [List.getLast?_cons_cons]
        have hsuffix : t = (takeRun g.date thc t).1 ++ s :: srem := by
          rw [← hrem, hsplit]
        have hlast_srem : (s :: srem).getLast? = (g :: t).getLast? := by
          rw [← hlast_t]
          conv_rhs => rw [hsuffix]
          rw [List.getLast?_append_of_ne_nil _ (by simp)]
        have happ := takeRun_append_stop thc t g.date s srem (r0 :: rest) hrem
        rw [List.cons_append, detect_cons, happ]
        rw [detect_cons th1 thc g t, hrem]
        by_cases hcond : thc ≤ (g.files.length : Int) ∧ (takeRun g.date thc t).1 ≠ []
        · rw [if_pos hcond, if_pos hcond]
          have : (s :: srem) ++ r0 :: rest = s :: (srem ++ r0 :: rest) := by simp
          rw [← this, ih (s :: srem) r0 rest
            (by have : (s :: srem).length ≤ t.length := by
                  rw [hsuffix]; simp
                omega)
            (by intro p hp; apply hblock; rwa [← hlast_srem])]
          simp
        · rw [if_neg hcond, if_neg hcond]
          rw [ih t r0 rest hlen'
            (by intro p hp; apply hblock; rwa [← hlast_t])]
          simp
      | nil =>
        -- the look-ahead consumed all of `t`
        have hfst : (takeRun g.date thc t).1 = t := by
          have := hsplit; rw [hrem] at this; simpa using this
        have happ := takeRun_append_all thc t g.date (r0 :: rest) hrem
        by_cases hc : isConsecutiveDay (t.getLastD g).date r0.date = true
        · -- the last bucket of `pre` connects to `r0`, so its count is low
          have hcount : ¬ thc ≤ ((t.getLastD g).files.length : Int) := fun h => hb ⟨hc, h⟩
          cases t with
          | cons a t' =>
            exfalso
            have hmem : (t'.getLastD a) ∈ (a :: t') := List.getLastD_mem_cons t' a
            have hmem' : (t'.getLastD a) ∈ (takeRun g.date thc (a :: t')).1 := by
              rw [hfst]; exact hmem
            have : thc ≤ (((a :: t').getLastD g).files.length : Int) := by
              rw [List.getLastD_cons]
              exact takeRun_mem_count thc (a :: t') g.date _ hmem'
            exact hcount this
          | nil =>
            -- pre = [g] and g itself has a low count
            have hg : ¬ thc ≤ ((g.files.length : Int)) := by simpa using hcount
            rw [List.cons_append, List.nil_append, detect_cons]
            rw [if_neg (by intro h; exact hg h.1)]
            rw [detect_cons th1 thc g []]
            rw [if_neg (by intro h; exact hg h.1)]
            rw [detect_nil]
            simp
        · -- no calendar connection from the end of `pre` into `r0`
          have hw : takeRun ((t.getLastD g).date) thc (r0 :: rest) = ([], r0 :: rest) := by
            rw [takeRun, if_neg (by intro h; exact hc h.1)]
          rw [endDate_eq_getLastD] at happ
          rw [hw] at happ
          rw [List.cons_append, detect_cons, happ]
          rw [detect_cons th1 thc g t, hrem, hfst]
          simp only [List.append_nil]
          by_cases hcond : thc ≤ (g.files.length : Int) ∧ t ≠ []
          · rw [if_pos hcond, if_pos hcond, detect_nil]
            simp
          · rw [if_neg hcond, if_neg hcond]
            rw [ih t r0 rest hlen'
              (by intro p hp
                  cases t with
                  | nil => simp at hp
                  | cons a t' =>
                    apply hblock
                    rwa [← List.getLast?_cons_cons (a := g)])]
            simp

theorem detect_run (th1 thc : Int) (r1 : dateGroup) (run' rest : List dateGroup)
    (hne : run' ≠ [])
    (hcnt : ∀ g ∈ r1 :: run', thc ≤ (g.files.length : Int))
    (hchain : List.Chain (fun x y => isConsecutiveDay x y = true) r1.date (run'.map (·.date)))
    (hblock : ∀ q ∈ rest.head?,
      ¬(isConsecutiveDay ((run'.getLastD r1).date) q.date = true ∧
        thc ≤ (q.files.length : Int))) :
    detectConsecutiveDays th1 thc ((r1 :: run') ++ rest) =
      mergedCluster r1 run' :: detectConsecutiveDays th1 thc rest := by
  have hex : takeRun r1.date thc (run' ++ rest) = (run', rest) := by
    apply takeRun_exact thc run' rest r1.date hchain
      (fun g hg => hcnt g (List.mem_cons_of_mem _ hg))
    rw [endDate_eq_getLastD]
    exact hblock
  rw [List.cons_append, detect_cons, hex]
  rw [if_pos ⟨hcnt r1 (List.mem_cons_self _ _), hne⟩]

/-- C1: for every date-ordered list of day buckets and every threshold pair,
each maximal run of two or more contiguous calendar days whose buckets each
have file count at least `thresholdConsecutiveDays` is emitted by
`detectConsecutiveDays` as exactly one cluster containing all files of the
run, with destination folder `firstCompactDate-lastCompactDate`; the run is
never split.  The run is `r1 :: run'` (length at least two), contiguity and
per-day volume are stated by `hchain` and `hcnt`, and `hleft`/`hright` state
maximality at both ends. -/
theorem claim1_maximal_run_one_cluster (th1 thc : Int)
    (pre post run' : List dateGroup) (r1 : dateGroup)
    (hne : run' ≠ [])
    (hcnt : ∀ g ∈ r1 :: run', thc ≤ (g.files.length : Int))
    (hchain : List.Chain (fun x y => isConsecutiveDay x y = true) r1.date (run'.map (·.date)))
    (hleft : ∀ p ∈ pre.getLast?,
      ¬(isConsecutiveDay p.date r1.date = true ∧ thc ≤ (p.files.length : Int)))
    (hright : ∀ q ∈ post.head?,
      ¬(isConsecutiveDay ((run'.getLastD r1).date) q.date = true ∧
        thc ≤ (q.files.length : Int))) :
    detectConsecutiveDays th1 thc (pre ++ (r1 :: run') ++ post) =
      detectConsecutiveDays th1 thc pre ++
        (⟨(r1 :: run').flatMap (·.files),
          compactDate r1.date ++ "-" ++ compactDate ((run'.getLastD r1).date)⟩ :
            groupWithDestDir) ::
          detectConsecutiveDays th1 thc post := by
  have h1 : pre ++ (r1 :: run') ++ post = pre ++ r1 :: (run' ++ post) := by simp
  rw [h1, detect_append_blocked th1 thc pre.length pre r1 (run' ++ post) le_rfl hleft]
  have h2 : r1 :: (run' ++ post) = (r1 :: run') ++ post := by simp
  rw [h2, detect_run th1 thc r1 run' post hne hcnt hchain hright]
  rfl

/-- Witness for C1: two consecutive days (2026-01-01 and 2026-01-02) with one
file each, thresholds `(5, 1)`, no context on either side: merged into one
cluster `20260101-20260102`. -/
theorem claim1_maximal_run_one_cluster_witness :
    detectConsecutiveDays 5 1
        ([] ++ ((⟨⟨2026, 1, 1, 0⟩, ["a"]⟩ : dateGroup) :: [⟨⟨2026, 1, 2, 0⟩, ["b"]⟩]) ++ []) =
      detectConsecutiveDays 5 1 [] ++
        (⟨((⟨⟨2026, 1, 1, 0⟩, ["a"]⟩ : dateGroup) :: [⟨⟨2026, 1, 2, 0⟩, ["b"]⟩]).flatMap (·.files),
          compactDate ⟨2026, 1, 1, 0⟩ ++ "-" ++
            compactDate ((([⟨⟨2026, 1, 2, 0⟩, ["b"]⟩] : List dateGroup).getLastD
              ⟨⟨2026, 1, 1, 0⟩, ["a"]⟩).date)⟩ : groupWithDestDir) ::
          detectConsecutiveDays 5 1 [] :=
  claim1_maximal_run_one_cluster 5 1 [] [] [⟨⟨2026, 1, 2, 0⟩, ["b"]⟩] ⟨⟨2026, 1, 1, 0⟩, ["a"]⟩
    (by decide) (by decide) (List.Chain.cons (by decide) List.Chain.nil) (by simp) (by simp)

/-- C2: a bucket at which no qualifying consecutive run of length at least two
forms (its count is below `thresholdConsecutiveDays`, or the next bucket does
not extend it) falls through to the single-day branch: count at least
`thresholdOneDay` (boundary inclusive) gives a compact-date folder, otherwise
the root `"."`.  The statement holds for every count, in particular when the
count exceeds `thresholdOneDay`: the consecutive-run check is evaluated
first, and only then the single-day check. -/
theorem claim2_single_day_fallthrough (th1 thc : Int) (g : dateGroup) (rest : List dateGroup)
    (hnorun : (g.files.length : Int) < thc ∨
      ∀ q ∈ rest.head?,
        ¬(isConsecutiveDay g.date q.date = true ∧ thc ≤ (q.files.length : Int))) :
    detectConsecutiveDays th1 thc (g :: rest) =
      (if th1 ≤ (g.files.length : Int) then (⟨g.files, compactDate g.date⟩ : groupWithDestDir)
       else ⟨g.files, "."⟩) :: detectConsecutiveDays th1 thc rest := by
  rw [detect_cons]
  rcases hnorun with h | h
  · rw [if_neg (fun hcond => absurd hcond.1 (not_le.mpr h))]
    rfl
  · have hrun : (takeRun g.date thc rest).1 = [] := by
      cases rest with
      | nil => rfl
      | cons q rest' =>
        rw [takeRun, if_neg (h q (by simp))]
    rw [hrun]
    rw [if_neg (fun hcond => hcond.2 rfl)]
    rfl

/-- Witness for C2: a single bucket with two files and thresholds `(2, 1)`:
the count meets `thresholdConsecutiveDays` but there is no next bucket, so it
falls through to the single-day branch, and `count = thresholdOneDay`
qualifies (boundary inclusive) for a compact-date folder. -/
theorem claim2_single_day_fallthrough_witness :
    detectConsecutiveDays 2 1 ((⟨⟨2026, 1, 15, 0⟩, ["a", "b"]⟩ : dateGroup) :: []) =
      (if (2 : Int) ≤ (((["a", "b"] : List String).length : Int)) then
        (⟨["a", "b"], compactDate ⟨2026, 1, 15, 0⟩⟩ : groupWithDestDir)
       else ⟨["a", "b"], "."⟩) :: detectConsecutiveDays 2 1 [] :=
  claim2_single_day_fallthrough 2 1 ⟨⟨2026, 1, 15, 0⟩, ["a", "b"]⟩ []
    (Or.inr (by simp))

/-- C5: two runs that each qualify for merging but are separated by a
calendar-day gap (the first bucket of the second run is not the day after the
last bucket of the first run) are emitted as two distinct clusters, never one
merged cluster; the gap terminates the first run. -/
theorem claim5_gap_gives_two_clusters (th1 thc : Int)
    (pre post runA runB : List dateGroup) (a1 b1 : dateGroup)
    (hneA : runA ≠ []) (hneB : runB ≠ [])
    (hcntA : ∀ g ∈ a1 :: runA, thc ≤ (g.files.length : Int))
    (hcntB : ∀ g ∈ b1 :: runB, thc ≤ (g.files.length : Int))
    (hchainA : List.Chain (fun x y => isConsecutiveDay x y = true) a1.date (runA.map (·.date)))
    (hchainB : List.Chain (fun x y => isConsecutiveDay x y = true) b1.date (runB.map (·.date)))
    (hgap : isConsecutiveDay ((runA.getLastD a1).date) b1.date = false)
    (hleft : ∀ p ∈ pre.getLast?,
      ¬(isConsecutiveDay p.date a1.date = true ∧ thc ≤ (p.files.length : Int)))
    (hright : ∀ q ∈ post.head?,
      ¬(isConsecutiveDay ((runB.getLastD b1).date) q.date = true ∧
        thc ≤ (q.files.length : Int))) :
    detectConsecutiveDays th1 thc (pre ++ (a1 :: runA) ++ (b1 :: runB) ++ post) =
      detectConsecutiveDays th1 thc pre ++
        (⟨(a1 :: runA).flatMap (·.files),
          compactDate a1.date ++ "-" ++ compactDate ((runA.getLastD a1).date)⟩ :
            groupWithDestDir) ::
        (⟨(b1 :: runB).flatMap (·.files),
          compactDate b1.date ++ "-" ++ compactDate ((runB.getLastD b1).date)⟩ :
            groupWithDestDir) ::
          detectConsecutiveDays th1 thc post := by
  have h1 : pre ++ (a1 :: runA) ++ (b1 :: runB) ++ post =
      pre ++ a1 :: (runA ++ (b1 :: runB) ++ post) := by simp
  rw [h1, detect_append_blocked th1 thc pre.length pre a1 (runA ++ (b1 :: runB) ++ post)
    le_rfl hleft]
  have h2 : a1 :: (runA ++ (b1 :: runB) ++ post) = (a1 :: runA) ++ ((b1 :: runB) ++ post) := by
    simp
  rw [h2, detect_run th1 thc a1 runA ((b1 :: runB) ++ post) hneA hcntA hchainA
    (by intro q hq
        simp only [List.cons_append, List.head?_cons, Option.mem_def, Option.some.injEq] at hq
        subst hq
        intro hcontra
        rw [hcontra.1] at hgap
        simp at hgap)]
  rw [detect_run th1 thc b1 runB post hneB hcntB hchainB hright]
  rfl

/-- Witness for C5: runs 2026-01-01..02 and 2026-01-04..05 (one file per day),
thresholds `(5, 1)`: the gap at 2026-01-03 yields two clusters. -/
theorem claim5_gap_gives_two_clusters_witness :
    detectConsecutiveDays 5 1
        ([] ++ ((⟨⟨2026, 1, 1, 0⟩, ["a"]⟩ : dateGroup) :: [⟨⟨2026, 1, 2, 0⟩, ["b"]⟩]) ++
          ((⟨⟨2026, 1, 4, 0⟩, ["c"]⟩ : dateGroup) :: [⟨⟨2026, 1, 5, 0⟩, ["e"]⟩]) ++ []) =
      detectConsecutiveDays 5 1 [] ++
        (⟨((⟨⟨2026, 1, 1, 0⟩, ["a"]⟩ : dateGroup) :: [⟨⟨2026, 1, 2, 0⟩, ["b"]⟩]).flatMap (·.files),
          compactDate ⟨2026, 1, 1, 0⟩ ++ "-" ++
            compactDate ((([⟨⟨2026, 1, 2, 0⟩, ["b"]⟩] : List dateGroup).getLastD
              ⟨⟨2026, 1, 1, 0⟩, ["a"]⟩).date)⟩ : groupWithDestDir) ::
        (⟨((⟨⟨2026, 1, 4, 0⟩, ["c"]⟩ : dateGroup) :: [⟨⟨2026, 1, 5, 0⟩, ["e"]⟩]).flatMap (·.files),
          compactDate ⟨2026, 1, 4, 0⟩ ++ "-" ++
            compactDate ((([⟨⟨2026, 1, 5, 0⟩, ["e"]⟩] : List dateGroup).getLastD
              ⟨⟨2026, 1, 4, 0⟩, ["c"]⟩).date)⟩ : groupWithDestDir) ::
          detectConsecutiveDays 5 1 [] :=
  claim5_gap_gives_two_clusters 5 1 [] []
    [⟨⟨2026, 1, 2, 0⟩, ["b"]⟩] [⟨⟨2026, 1, 5, 0⟩, ["e"]⟩]
    ⟨⟨2026, 1, 1, 0⟩, ["a"]⟩ ⟨⟨2026, 1, 4, 0⟩, ["c"]⟩
    (by decide) (by decide) (by decide) (by decide)
    (List.Chain.cons (by decide) List.Chain.nil)
    (List.Chain.cons (by decide) List.Chain.nil)
    (by decide) (by simp) (by simp)

/-! ## The partition invariant (claim C3) -/

theorem singleCluster_files (th1 : Int) (g : dateGroup) :
    (singleCluster th1 g).files = g.files := by
  rw [singleCluster]
  split <;> rfl

theorem detect_flatMap_eq (th1 thc : Int) :
    ∀ (n : Nat) (gs : List dateGroup), gs.length ≤ n →
      (detectConsecutiveDays th1 thc gs).flatMap (·.files) = gs.flatMap (·.files) := by
  intro n
  induction n with
  | zero =>
    intro gs hlen
    have : gs = [] := List.length_eq_zero.mp (Nat.le_zero.mp hlen)
    subst this
    rw [detect_nil]
    rfl
  | succ n ih =>
    intro gs hlen
    match gs with
    | [] => rw [detect_nil]; rfl
    | g :: t =>
      have hlen' : t.length ≤ n := by simp only [List.length_cons] at hlen; omega
      rw [detect_cons]
      by_cases hcond : thc ≤ (g.files.length : Int) ∧ (takeRun g.date thc t).1 ≠ []
      · rw [if_pos hcond]
        have hsplit := takeRun_fst_append_snd g.date thc t
        have hlen2 : (takeRun g.date thc t).2.length ≤ n := by
          have := takeRun_snd_length_le g.date thc t
          omega
        rw [List.flatMap_cons, ih _ hlen2]
        show (mergedCluster g (takeRun g.date thc t).1).files ++ _ = _
        rw [mergedCluster]
        conv_rhs => rw [← hsplit]
        simp
      · rw [if_neg hcond]
        rw [List.flatMap_cons, ih t hlen', singleCluster_files]
        simp

theorem cons_set_perm : ∀ (t : List α) (m : Nat) (x y : α),
    t.get? m = some y → List.Perm (y :: t.set m x) (x :: t) := by
  intro t
  induction t with
  | nil => intro m x y h; simp at h
  | cons a t ih =>
    intro m x y h
    cases m with
    | zero =>
      simp only [List.get?_cons_zero, Option.some.injEq] at h
      subst h
      rw [List.set_cons_zero]
      exact List.Perm.swap _ _ t
    | succ m =>
      simp only [List.get?_cons_succ] at h
      rw [List.set_cons_succ]
      refine (List.Perm.swap a y _).trans ?_
      refine ((ih m x y h).cons a).trans ?_
      exact List.Perm.swap x a t

theorem set_set_swap_perm : ∀ (l : List α) (i j : Nat) (a b : α),
    l.get? i = some a → l.get? j = some b → List.Perm ((l.set i b).set j a) l := by
  intro l
  induction l with
  | nil => intro i j a b h _; simp at h
  | cons c t ih =>
    intro i j a b hi hj
    cases i with
    | zero =>
      simp only [List.get?_cons_zero, Option.some.injEq] at hi
      cases j with
      | zero =>
        simp only [List.get?_cons_zero, Option.some.injEq] at hj
        subst hi; subst hj
        simp
      | succ m =>
        simp only [List.get?_cons_succ] at hj
        subst hi
        rw [List.set_cons_zero, List.set_cons_succ]
        exact cons_set_perm t m _ b hj
    | succ n =>
      simp only [List.get?_cons_succ] at hi
      cases j with
      | zero =>
        simp only [List.get?_cons_zero, Option.some.injEq] at hj
        subst hj
        rw [List.set_cons_succ, List.set_cons_zero]
        exact cons_set_perm t n _ a hi
      | succ m =>
        simp only [List.get?_cons_succ] at hj
        rw [List.set_cons_succ, List.set_cons_succ]
        exact (ih n m a b hi hj).cons c

theorem sortPassStep_perm (l : List dateGroup) (i j : Nat) :
    List.Perm (sortPassStep l i j) l := by
  unfold sortPassStep
  cases hi : l.get? i with
  | none => exact List.Perm.refl l
  | some a =>
    cases hj : l.get? j with
    | none => exact List.Perm.refl l
    | some b =>
      show (if timeAfter a.date b.date = true then (l.set i b).set j a else l).Perm l
      by_cases hab : timeAfter a.date b.date = true
      · rw [if_pos hab]
        exact set_set_swap_perm l i j a b hi hj
      · rw [if_neg hab]

theorem foldl_perm_of_step_perm {β : Type} (f : List dateGroup → β → List dateGroup)
    (h : ∀ acc b, List.Perm (f acc b) acc) :
    ∀ (xs : List β) (l : List dateGroup), List.Perm (xs.foldl f l) l := by
  intro xs
  induction xs with
  | nil => intro l; exact List.Perm.refl l
  | cons x xs ih =>
    intro l
    exact (ih (f l x)).trans (h l x)

theorem sortGroups_perm (l : List dateGroup) : List.Perm (sortGroups l) l := by
  rw [sortGroups]
  apply foldl_perm_of_step_perm
  intro acc i
  apply foldl_perm_of_step_perm
  intro acc2 j
  exact sortPassStep_perm acc2 i j

theorem insertFwd_flat_perm (m : List (String × dateGroup)) (f : fileWithDate) :
    List.Perm (((insertFwd m f).map (·.2)).flatMap (·.files))
      ((m.map (·.2)).flatMap (·.files) ++ [f.name]) := by
  induction m with
  | nil => simp [insertFwd]
  | cons kg rest ih =>
    match kg with
    | (k, g) =>
      by_cases hk : k = dateKey f.date
      · rw [insertFwd, if_pos hk]
        simp only [List.map_cons, List.flatMap_cons]
        have h1 : (g.files ++ [f.name]) ++ (rest.map (·.2)).flatMap (·.files)
            = g.files ++ ([f.name] ++ (rest.map (·.2)).flatMap (·.files)) := by simp
        rw [h1]
        have h2 : (g.files ++ (rest.map (·.2)).flatMap (·.files)) ++ [f.name]
            = g.files ++ ((rest.map (·.2)).flatMap (·.files) ++ [f.name]) := by simp
        rw [h2]
        exact List.Perm.append_left _ List.perm_append_comm
      · rw [insertFwd, if_neg hk]
        simp only [List.map_cons, List.flatMap_cons]
        have h2 : (g.files ++ (rest.map (·.2)).flatMap (·.files)) ++ [f.name]
            = g.files ++ ((rest.map (·.2)).flatMap (·.files) ++ [f.name]) := by simp
        rw [h2]
        exact List.Perm.append_left _ ih

theorem foldl_insertFwd_flat_perm :
    ∀ (l : List fileWithDate) (m : List (String × dateGroup)),
      List.Perm (((l.foldl insertFwd m).map (·.2)).flatMap (·.files))
        ((m.map (·.2)).flatMap (·.files) ++ l.map (·.name)) := by
  intro l
  induction l with
  | nil => intro m; simp
  | cons f l ih =>
    intro m
    rw [List.foldl_cons]
    refine (ih (insertFwd m f)).trans ?_
    refine (List.Perm.append_right _ (insertFwd_flat_perm m f)).trans ?_
    have : ((m.map (·.2)).flatMap (·.files) ++ [f.name]) ++ l.map (·.name)
        = (m.map (·.2)).flatMap (·.files) ++ (f :: l).map (·.name) := by simp
    rw [this]

/-- C3: for every input collection of (filename, date) records, the clusters
produced by `groupFilesByDate` followed by `detectConsecutiveDays` partition
the input file set: the concatenation of the emitted clusters' file lists is
a permutation of the input name list (each input occurrence appears exactly
once, no duplication, no omission). -/
theorem claim3_clusters_partition_input (th1 thc : Int) (records : List fileWithDate) :
    List.Perm
      ((detectConsecutiveDays th1 thc (groupFilesByDate records)).flatMap (·.files))
      (records.map (·.name)) := by
  rw [detect_flatMap_eq th1 thc (groupFilesByDate records).length _ le_rfl]
  rw [groupFilesByDate]
  refine ((sortGroups_perm _).flatMap_right _).trans ?_
  refine (foldl_insertFwd_flat_perm records []).trans ?_
  simp

/-- C4 evidence: `groupFilesByDate` returns the day buckets in descending
date order, not ascending.  The exchange loop swaps whenever
`groups[i].date.After(groups[j].date)`, which for this loop shape
(`for i` over all indices, `for j` over all indices) sorts in descending
order; on two files taken on 2026-01-15 and 2026-01-16 the bucket for the
16th comes first.  The empty input does yield zero buckets.  The final order
is independent of Go's unspecified map iteration order: both insertion
orders of the two buckets produce the same descending result. -/
theorem claim4_buckets_descending_not_ascending :
    (groupFilesByDate
        [⟨"a.arw", ⟨2026, 1, 15, 10⟩⟩, ⟨"b.arw", ⟨2026, 1, 16, 10⟩⟩]).map (·.date) =
      [⟨2026, 1, 16, 10⟩, ⟨2026, 1, 15, 10⟩] ∧
    (groupFilesByDate
        [⟨"b.arw", ⟨2026, 1, 16, 10⟩⟩, ⟨"a.arw", ⟨2026, 1, 15, 10⟩⟩]).map (·.date) =
      [⟨2026, 1, 16, 10⟩, ⟨2026, 1, 15, 10⟩] ∧
    groupFilesByDate [] = [] := by
  refine ⟨?_, ?_, rfl⟩ <;> rfl

/-! ## Transfer engine: flat `copyFiles` and `removeFiles` (main.go) -/

/-- A directory entry as returned by `os.ReadDir`: a name and whether it is a
subdirectory. -/
structure DirEntry where
  name : String
  isDir : Bool
deriving DecidableEq, Repr

/-- The running state of one `copyFiles` call: the atomic success counter,
the set of files present in the destination (full paths), and the names whose
copy failed (the components of the joined error; the call returns a `nil`
error exactly when this list is empty). -/
structure CopyState where
  count : Nat
  dstFiles : List String
  errs : List String
deriving DecidableEq, Repr

/-- The per-entry goroutine body of the flat `copyFiles` (main.go): skip
directories; skip names whose extension does not match `"." + ext` up to
case (`strings.EqualFold`); without the overwrite flag, skip files already
present at the destination (`os.Stat` success); in dry-run mode count
without copying; otherwise copy, recording a failure (oracle `copyFails`)
or the new destination file and the incremented counter. -/
def copyFilesStep (dstDir ext : String) (flagDryRun flagOverwrite : Bool)
    (copyFails : String → Bool) (st : CopyState) (e : DirEntry) : CopyState :=
  if e.isDir then st
  else if ¬ (goEqualFold (pathExt e.name) ("." ++ ext) = true) then st
  else
    let dstPath := joinPath dstDir e.name
    if ¬ flagOverwrite ∧ dstPath ∈ st.dstFiles then st
    else if flagDryRun then { st with count := st.count + 1 }
    else if copyFails e.name then { st with errs := st.errs ++ [e.name] }
    else { st with count := st.count + 1, dstFiles := st.dstFiles ++ [dstPath] }

/-- The entry loop of the flat `copyFiles`: all goroutine bodies are awaited
before the call returns; the bodies are independent (each touches only its
own destination path), so the loop is executed in entry order. -/
def copyFilesLoop (dstDir ext : String) (flagDryRun flagOverwrite : Bool)
    (copyFails : String → Bool) : List DirEntry → CopyState → CopyState
  | [], st => st
  | e :: rest, st =>
    copyFilesLoop dstDir ext flagDryRun flagOverwrite copyFails rest
      (copyFilesStep dstDir ext flagDryRun flagOverwrite copyFails st e)

/-- Model of the flat `copyFiles` (main.go): `entries` is the listing of the
source directory, `dst` the files already present in the destination
directory. -/
def copyFiles (entries : List DirEntry) (dst : List String) (dstDir ext : String)
    (flagDryRun flagOverwrite : Bool) (copyFails : String → Bool) : CopyState :=
  copyFilesLoop dstDir ext flagDryRun flagOverwrite copyFails entries ⟨0, dst, []⟩

/-- Model of `removeFiles` (main.go/fileops.go): remove every file of the
directory in listing order, but return immediately with the count so far and
the failing name as the error when a removal fails (oracle `removeFails`). -/
def removeFiles (removeFails : String → Bool) : List DirEntry → Nat × Option String
  | [] => (0, none)
  | e :: rest =>
    if e.isDir then removeFiles removeFails rest
    else if removeFails e.name then (0, some e.name)
    else
      let r := removeFiles removeFails rest
      (r.1 + 1, r.2)

theorem joinPath_right_inj (d : String) {a b : String} (h : joinPath d a = joinPath d b) :
    a = b := by
  have hdata : (joinPath d a).data = (joinPath d b).data := congrArg String.data h
  simp only [joinPath, String.data_append] at hdata
  exact String.ext (List.append_cancel_left hdata)

/-- The entries of one `copyFiles` batch that reach the copy stage: files (not
directories) whose extension matches up to case and that are not skipped by
the no-overwrite check against the initial destination content `dst0`. -/
def copySelected (dst0 : List String) (dstDir ext : String) (ow : Bool)
    (entries : List DirEntry) : List DirEntry :=
  entries.filter (fun e => !e.isDir && goEqualFold (pathExt e.name) ("." ++ ext) &&
    (ow || !(decide (joinPath dstDir e.name ∈ dst0))))

theorem copyFilesLoop_closed (dstDir ext : String) (ow : Bool) (cf : String → Bool) :
    ∀ (entries : List DirEntry) (st : CopyState) (dst0 : List String),
      (entries.map (·.name)).Nodup →
      (∀ e ∈ entries,
        joinPath dstDir e.name ∈ st.dstFiles ↔ joinPath dstDir e.name ∈ dst0) →
      copyFilesLoop dstDir ext false ow cf entries st =
        { count := st.count +
            ((copySelected dst0 dstDir ext ow entries).filter (fun e => !cf e.name)).length,
          dstFiles := st.dstFiles ++
            ((copySelected dst0 dstDir ext ow entries).filter (fun e => !cf e.name)).map
              (fun e => joinPath dstDir e.name),
          errs := st.errs ++
            ((copySelected dst0 dstDir ext ow entries).filter (fun e => cf e.name)).map
              (·.name) } := by
  intro entries
  induction entries with
  | nil => intro st dst0 _ _; simp [copyFilesLoop, copySelected]
  | cons e rest ih =>
    intro st dst0 hnodup hinv
    simp only [List.map_cons, List.nodup_cons] at hnodup
    have hnotin : e.name ∉ rest.map (·.name) := hnodup.1
    have hinv_e := hinv e (List.mem_cons_self _ _)
    have hinv_rest : ∀ e' ∈ rest,
        joinPath dstDir e'.name ∈ st.dstFiles ↔ joinPath dstDir e'.name ∈ dst0 :=
      fun e' he' => hinv e' (List.mem_cons_of_mem _ he')
    have hpath_ne : ∀ e' ∈ rest, joinPath dstDir e'.name ≠ joinPath dstDir e.name := by
      intro e' he' hcontra
      exact hnotin (by
        have heq : e'.name = e.name := joinPath_right_inj dstDir hcontra
        rw [← heq]
        exact List.mem_map_of_mem _ he')
    rw [copyFilesLoop]
    by_cases hdir : e.isDir
    · have hstep : copyFilesStep dstDir ext false ow cf st e = st := by
        rw [copyFilesStep, if_pos hdir]
      have hsel : copySelected dst0 dstDir ext ow (e :: rest) =
          copySelected dst0 dstDir ext ow rest := by
        rw [copySelected, copySelected]
        exact List.filter_cons_of_neg (by simp [hdir])
      rw [hstep, ih st dst0 hnodup.2 hinv_rest, hsel]
    · by_cases hext : goEqualFold (pathExt e.name) ("." ++ ext) = true
      · by_cases hskip : ¬ ow ∧ joinPath dstDir e.name ∈ st.dstFiles
        · -- skipped: already present at the destination, no overwrite
          have hstep : copyFilesStep dstDir ext false ow cf st e = st := by
            rw [copyFilesStep, if_neg hdir, if_neg (by simp [hext]), if_pos hskip]
          have hsel : copySelected dst0 dstDir ext ow (e :: rest) =
              copySelected dst0 dstDir ext ow rest := by
            rw [copySelected, copySelected]
            refine List.filter_cons_of_neg ?_
            have hmem : joinPath dstDir e.name ∈ dst0 := hinv_e.mp hskip.2
            have how : ow = false := by
              cases ow with
              | false => rfl
              | true => exact absurd rfl hskip.1
            simp [hmem, how]
          rw [hstep, ih st dst0 hnodup.2 hinv_rest, hsel]
        · -- not skipped: the file reaches the copy stage
          have hsel : copySelected dst0 dstDir ext ow (e :: rest) =
              e :: copySelected dst0 dstDir ext ow rest := by
            rw [copySelected, copySelected]
            refine List.filter_cons_of_pos ?_
            rcases Decidable.not_and_iff_or_not.mp hskip with how | hc
            · have : ow = true := not_not.mp how
              simp [hdir, hext, this]
            · have : joinPath dstDir e.name ∉ dst0 := fun hmem => hc (hinv_e.mpr hmem)
              simp [hdir, hext, this]
          rw [hsel]
          by_cases hcf : cf e.name = true
          · have hstep : copyFilesStep dstDir ext false ow cf st e =
                { st with errs := st.errs ++ [e.name] } := by
              rw [copyFilesStep, if_neg hdir, if_neg (by simp [hext]), if_neg hskip,
                if_neg (by simp), if_pos hcf]
            rw [hstep, ih ⟨st.count, st.dstFiles, st.errs ++ [e.name]⟩ dst0 hnodup.2 hinv_rest]
            rw [List.filter_cons_of_neg (by simp [hcf]), List.filter_cons_of_pos (by simp [hcf])]
            simp
          · have hstep : copyFilesStep dstDir ext false ow cf st e =
                { st with count := st.count + 1,
                          dstFiles := st.dstFiles ++ [joinPath dstDir e.name] } := by
              rw [copyFilesStep, if_neg hdir, if_neg (by simp [hext]), if_neg hskip,
                if_neg (by simp), if_neg hcf]
            have hinv_rest' : ∀ e' ∈ rest,
                joinPath dstDir e'.name ∈ st.dstFiles ++ [joinPath dstDir e.name] ↔
                  joinPath dstDir e'.name ∈ dst0 := by
              intro e' he'
              rw [List.mem_append, List.mem_singleton]
              constructor
              · intro h
                rcases h with h | h
                · exact (hinv_rest e' he').mp h
                · exact absurd h (hpath_ne e' he')
              · intro h
                exact Or.inl ((hinv_rest e' he').mpr h)
            rw [hstep, ih ⟨st.count + 1, st.dstFiles ++ [joinPath dstDir e.name], st.errs⟩
              dst0 hnodup.2 hinv_rest']
            rw [List.filter_cons_of_pos (by simp [hcf]), List.filter_cons_of_neg (by simp [hcf])]
            simp only [CopyState.mk.injEq, List.length_cons, List.map_cons, List.append_assoc,
              List.cons_append, List.nil_append]
            exact ⟨by omega, trivial, trivial⟩
      · have hstep : copyFilesStep dstDir ext false ow cf st e = st := by
          rw [copyFilesStep, if_neg hdir, if_pos (by simp [hext])]
        have hsel : copySelected dst0 dstDir ext ow (e :: rest) =
            copySelected dst0 dstDir ext ow rest := by
          rw [copySelected, copySelected]
          exact List.filter_cons_of_neg (by simp [hdir, hext])
        rw [hstep, ih st dst0 hnodup.2 hinv_rest, hsel]

theorem removeFiles_closed (rf : String → Bool) :
    ∀ entries : List DirEntry,
      removeFiles rf entries =
        (((entries.takeWhile (fun e => e.isDir || !rf e.name)).filter
            (fun e => !e.isDir)).length,
         ((entries.dropWhile (fun e => e.isDir || !rf e.name)).head?).map (·.name)) := by
  intro entries
  induction entries with
  | nil => simp [removeFiles]
  | cons e rest ih =>
    by_cases hdir : e.isDir
    · rw [removeFiles, if_pos hdir, ih]
      rw [List.takeWhile_cons, List.dropWhile_cons]
      simp [hdir]
    · by_cases hrf : rf e.name
      · rw [removeFiles, if_neg hdir, if_pos hrf]
        rw [List.takeWhile_cons, List.dropWhile_cons]
        simp [hdir, hrf]
      · rw [removeFiles, if_neg hdir, if_neg hrf, ih]
        rw [List.takeWhile_cons, List.dropWhile_cons]
        simp [hdir, hrf, List.filter_cons]

/-- C6 counterexample: the claim asserts that in the source-removal phase a
failed remove is collected and the remaining files are still processed.  In
the code, `removeFiles` returns at the first failed remove: with two plain
files where removing the first fails, the count is `0` even though the second
file does not fail, so the remaining file was not processed and no aggregate
of one error alongside one success is produced. -/
theorem claim6_remove_aborts_counterexample :
    removeFiles (fun n => n == "a.arw") [⟨"a.arw", false⟩, ⟨"b.arw", false⟩] =
      (0, some "a.arw") ∧
    (([⟨"a.arw", false⟩, ⟨"b.arw", false⟩] : List DirEntry).filter
        (fun e => !e.isDir && !(e.name == "a.arw"))).length = 1 ∧
    (removeFiles (fun n => n == "a.arw") [⟨"a.arw", false⟩, ⟨"b.arw", false⟩]).1 ≠ 1 := by
  refine ⟨rfl, rfl, ?_⟩
  decide

/-- C6 (amended): in the copy phase, per-file copy failures are collected into
one aggregated error returned alongside the count of successful copies, and
the batch does not abort: the result is exactly the count of the non-failing
selected files, the destination extended by those files, and the list of
failing names (the components of the joined error).  In the source-removal
phase, by contrast, the batch aborts at the first failed remove: the count is
the number of files removed before the first failure and the error is that
single failure; files after it are not processed.  Directory listings have
no duplicate names (`hnodup`). -/
theorem claim6_copy_aggregates_remove_aborts
    (entries : List DirEntry) (dst : List String) (dstDir ext : String) (ow : Bool)
    (cf rf : String → Bool) (hnodup : (entries.map (·.name)).Nodup) :
    copyFiles entries dst dstDir ext false ow cf =
      { count := ((copySelected dst dstDir ext ow entries).filter
            (fun e => !cf e.name)).length,
        dstFiles := dst ++
          ((copySelected dst dstDir ext ow entries).filter (fun e => !cf e.name)).map
            (fun e => joinPath dstDir e.name),
        errs := ((copySelected dst dstDir ext ow entries).filter (fun e => cf e.name)).map
          (·.name) } ∧
    removeFiles rf entries =
      (((entries.takeWhile (fun e => e.isDir || !rf e.name)).filter
          (fun e => !e.isDir)).length,
       ((entries.dropWhile (fun e => e.isDir || !rf e.name)).head?).map (·.name)) := by
  constructor
  · rw [copyFiles, copyFilesLoop_closed dstDir ext ow cf entries ⟨0, dst, []⟩ dst hnodup
      (fun e _ => Iff.rfl)]
    simp
  · exact removeFiles_closed rf entries

/-- Witness for the amended C6 at a concrete input: two raw files where both
the copy and the removal of the first fail. -/
theorem claim6_copy_aggregates_remove_aborts_witness :
    copyFiles [⟨"a.arw", false⟩, ⟨"b.arw", false⟩] [] "dst" "arw" false false
        (fun n => n == "a.arw") =
      { count := ((copySelected [] "dst" "arw" false
              [⟨"a.arw", false⟩, ⟨"b.arw", false⟩]).filter
            (fun e => !(fun n : String => n == "a.arw") e.name)).length,
        dstFiles := [] ++
          ((copySelected [] "dst" "arw" false
              [⟨"a.arw", false⟩, ⟨"b.arw", false⟩]).filter
              (fun e => !(fun n : String => n == "a.arw") e.name)).map
            (fun e => joinPath "dst" e.name),
        errs := ((copySelected [] "dst" "arw" false
              [⟨"a.arw", false⟩, ⟨"b.arw", false⟩]).filter
            (fun e => (fun n : String => n == "a.arw") e.name)).map (·.name) } ∧
    removeFiles (fun n => n == "a.arw") [⟨"a.arw", false⟩, ⟨"b.arw", false⟩] =
      (((([⟨"a.arw", false⟩, ⟨"b.arw", false⟩] : List DirEntry).takeWhile
            (fun e => e.isDir || !(fun n : String => n == "a.arw") e.name)).filter
          (fun e => !e.isDir)).length,
       ((([⟨"a.arw", false⟩, ⟨"b.arw", false⟩] : List DirEntry).dropWhile
            (fun e => e.isDir || !(fun n : String => n == "a.arw") e.name)).head?).map
         (·.name)) :=
  claim6_copy_aggregates_remove_aborts [⟨"a.arw", false⟩, ⟨"b.arw", false⟩] [] "dst" "arw"
    false (fun n => n == "a.arw") (fun n => n == "a.arw") (by decide)

/-! ## Transfer engine with date clustering (`copyFiles`, fileops.go EXIF
version) -/

/-- The destination filesystem state seen by the clustering `copyFiles`:
directories created so far and files present (full paths). -/
structure DstState where
  dirs : List String
  files : List String
deriving DecidableEq, Repr

/-- Running state of one clustering `copyFiles` call: counter, destination
state, and names whose copy failed. -/
structure XState where
  count : Nat
  dst : DstState
  errs : List String
deriving DecidableEq, Repr

/-- The first pass of the clustering `copyFiles` (fileops.go): skip
directories and non-matching extensions (`strings.EqualFold`), read the EXIF
date of each remaining file.  `exifOf` returns `none` when the file cannot be
opened, its EXIF cannot be decoded, or it has no date tag — all three cases
make the code skip the file. -/
def extractFilesWithDates (entries : List DirEntry) (exifOf : String → Option GoTime)
    (ext : String) : List fileWithDate :=
  entries.filterMap (fun e =>
    if e.isDir then none
    else if goEqualFold (pathExt e.name) ("." ++ ext) then
      (exifOf e.name).map (fun d => ⟨e.name, d⟩)
    else none)

/-- The per-file goroutine body of the clustering `copyFiles`: skip if the
destination file exists and overwrite is off; in dry-run mode only count;
otherwise copy, recording a failure or the new file. -/
def copyFileInGroup (actualDestDir : String) (flagDryRun flagOverwrite : Bool)
    (copyFails : String → Bool) (st : XState) (name : String) : XState :=
  let dstPath := joinPath actualDestDir name
  if ¬ flagOverwrite ∧ dstPath ∈ st.dst.files then st
  else if flagDryRun then { st with count := st.count + 1 }
  else if copyFails name then { st with errs := st.errs ++ [name] }
  else { st with count := st.count + 1,
                 dst := { st.dst with files := st.dst.files ++ [dstPath] } }

/-- One destination group of the clustering `copyFiles`: resolve the actual
destination directory (the root for `"."`, otherwise a subdirectory created
with `MkdirAll` unless in dry-run mode), then process every file of the
group. -/
def copyGroup (dstDir : String) (flagDryRun flagOverwrite : Bool)
    (copyFails : String → Bool) (st : XState) (g : groupWithDestDir) : XState :=
  let actualDestDir := if g.destDir = "." then dstDir else joinPath dstDir g.destDir
  let st1 := if g.destDir = "." ∨ flagDryRun then st
    else { st with dst := { st.dst with dirs := st.dst.dirs ++ [actualDestDir] } }
  g.files.foldl (copyFileInGroup actualDestDir flagDryRun flagOverwrite copyFails) st1

/-- Model of the clustering `copyFiles` (fileops.go, EXIF version): extract
dated files, group them by calendar day, detect consecutive-day events, and
copy each resulting group into its destination folder. -/
def copyFilesByDate (entries : List DirEntry) (exifOf : String → Option GoTime)
    (dst : DstState) (dstDir ext : String)
    (thresholdOneDay thresholdConsecutiveDays : Int)
    (flagDryRun flagOverwrite : Bool) (copyFails : String → Bool) : XState :=
  let filesWithDates := extractFilesWithDates entries exifOf ext
  if filesWithDates.isEmpty then ⟨0, dst, []⟩
  else
    (detectConsecutiveDays thresholdOneDay thresholdConsecutiveDays
        (groupFilesByDate filesWithDates)).foldl
      (copyGroup dstDir flagDryRun flagOverwrite copyFails) ⟨0, dst, []⟩

theorem copyFileInGroup_dry (actualDestDir : String) (ow : Bool) (cf : String → Bool)
    (st : XState) (name : String) :
    (copyFileInGroup actualDestDir true ow cf st name).dst = st.dst ∧
    (copyFileInGroup actualDestDir true ow cf st name).errs = st.errs := by
  rw [copyFileInGroup]
  by_cases hskip : ¬ ow ∧ joinPath actualDestDir name ∈ st.dst.files
  · rw [if_pos hskip]
    exact ⟨rfl, rfl⟩
  · rw [if_neg hskip, if_pos rfl]
    exact ⟨rfl, rfl⟩

theorem copyGroup_files_dry (actualDestDir : String) (ow : Bool) (cf : String → Bool) :
    ∀ (names : List String) (st : XState),
      (names.foldl (copyFileInGroup actualDestDir true ow cf) st).dst = st.dst ∧
      (names.foldl (copyFileInGroup actualDestDir true ow cf) st).errs = st.errs := by
  intro names
  induction names with
  | nil => intro st; exact ⟨rfl, rfl⟩
  | cons n names ih =>
    intro st
    rw [List.foldl_cons]
    have h1 := copyFileInGroup_dry actualDestDir ow cf st n
    have h2 := ih (copyFileInGroup actualDestDir true ow cf st n)
    exact ⟨h2.1.trans h1.1, h2.2.trans h1.2⟩

theorem copyGroup_dry (dstDir : String) (ow : Bool) (cf : String → Bool)
    (st : XState) (g : groupWithDestDir) :
    (copyGroup dstDir true ow cf st g).dst = st.dst ∧
    (copyGroup dstDir true ow cf st g).errs = st.errs := by
  rw [copyGroup]
  simp only [or_true, if_pos]
  exact copyGroup_files_dry _ ow cf g.files st

theorem copyGroups_dry (dstDir : String) (ow : Bool) (cf : String → Bool) :
    ∀ (gs : List groupWithDestDir) (st : XState),
      (gs.foldl (copyGroup dstDir true ow cf) st).dst = st.dst ∧
      (gs.foldl (copyGroup dstDir true ow cf) st).errs = st.errs := by
  intro gs
  induction gs with
  | nil => intro st; exact ⟨rfl, rfl⟩
  | cons g gs ih =>
    intro st
    rw [List.foldl_cons]
    have h1 := copyGroup_dry dstDir ow cf st g
    have h2 := ih (copyGroup dstDir true ow cf st g)
    exact ⟨h2.1.trans h1.1, h2.2.trans h1.2⟩

/-- C8: running the transfer engine in dry-run (simulate) mode never mutates
the filesystem and reports the same copied count on a second run over the
unchanged input.  Stated for both the clustering `copyFiles` (fileops.go,
EXIF version — destination state and error list unchanged, and the count of
a second run started from the state left by the first equals the first
count) and the flat `copyFiles` (main.go — destination files unchanged, and
the second run reports the same count). -/
theorem claim8_dry_run_never_mutates_idempotent
    (entries : List DirEntry) (exifOf : String → Option GoTime) (dst : DstState)
    (dstDir ext : String) (th1 thc : Int) (ow : Bool) (cf : String → Bool)
    (dstFlat : List String) :
    (copyFilesByDate entries exifOf dst dstDir ext th1 thc true ow cf).dst = dst ∧
    (copyFilesByDate entries exifOf dst dstDir ext th1 thc true ow cf).errs = [] ∧
    (copyFilesByDate entries exifOf
        ((copyFilesByDate entries exifOf dst dstDir ext th1 thc true ow cf).dst)
        dstDir ext th1 thc true ow cf).count =
      (copyFilesByDate entries exifOf dst dstDir ext th1 thc true ow cf).count ∧
    (copyFiles entries dstFlat dstDir ext true ow cf).dstFiles = dstFlat ∧
    (copyFiles entries
        ((copyFiles entries dstFlat dstDir ext true ow cf).dstFiles)
        dstDir ext true ow cf).count =
      (copyFiles entries dstFlat dstDir ext true ow cf).count := by
  have hmain : (copyFilesByDate entries exifOf dst dstDir ext th1 thc true ow cf).dst = dst ∧
      (copyFilesByDate entries exifOf dst dstDir ext th1 thc true ow cf).errs = [] := by
    rw [copyFilesByDate]
    by_cases hempty : (extractFilesWithDates entries exifOf ext).isEmpty
    · rw [if_pos hempty]
      exact ⟨rfl, rfl⟩
    · rw [if_neg hempty]
      exact copyGroups_dry dstDir ow cf _ ⟨0, dst, []⟩
  have hflat : ∀ (d0 : List String) (st : CopyState),
      (copyFilesLoop dstDir ext true ow cf entries st).dstFiles = st.dstFiles := by
    intro d0 st
    clear hmain
    induction entries generalizing st with
    | nil => rfl
    | cons e rest ih =>
      rw [copyFilesLoop]
      refine (ih _).trans ?_
      rw [copyFilesStep]
      by_cases hdir : e.isDir
      · rw [if_pos hdir]
      · rw [if_neg hdir]
        by_cases hext : goEqualFold (pathExt e.name) ("." ++ ext) = true
        · rw [if_neg (by simp [hext])]
          by_cases hskip : ¬ ow ∧ joinPath dstDir e.name ∈ st.dstFiles
          · rw [if_pos hskip]
          · rw [if_neg hskip, if_pos rfl]
        · rw [if_pos (by simp [hext])]
  refine ⟨hmain.1, hmain.2, ?_, ?_, ?_⟩
  · rw [hmain.1]
  · exact hflat dstFlat ⟨0, dstFlat, []⟩
  · have hfl : (copyFiles entries dstFlat dstDir ext true ow cf).dstFiles = dstFlat :=
      hflat dstFlat ⟨0, dstFlat, []⟩
    rw [copyFiles, hfl]
    rfl

theorem copyFilesLoop_filter_inv (dstDir ext : String) (dry ow : Bool) (cf : String → Bool) :
    ∀ (entries : List DirEntry) (st : CopyState),
      copyFilesLoop dstDir ext dry ow cf entries st =
        copyFilesLoop dstDir ext dry ow cf
          (entries.filter (fun e => !e.isDir && goEqualFold (pathExt e.name) ("." ++ ext)))
          st := by
  intro entries
  induction entries with
  | nil => intro st; rfl
  | cons e rest ih =>
    intro st
    rw [copyFilesLoop, List.filter_cons]
    by_cases hdir : e.isDir
    · have hstep : copyFilesStep dstDir ext dry ow cf st e = st := by
        rw [copyFilesStep, if_pos hdir]
      rw [hstep, if_neg (by simp [hdir]), ih]
    · by_cases hext : goEqualFold (pathExt e.name) ("." ++ ext) = true
      · rw [if_pos (by simp [hdir, hext]), copyFilesLoop, ih]
      · have hstep : copyFilesStep dstDir ext dry ow cf st e = st := by
          rw [copyFilesStep, if_neg hdir, if_pos (by simp [hext])]
        rw [hstep, if_neg (by simp [hdir, hext]), ih]

theorem copyFilesLoop_dry_ow_count (dstDir ext : String) (cf : String → Bool) :
    ∀ (entries : List DirEntry) (st : CopyState),
      (copyFilesLoop dstDir ext true true cf entries st).count =
        st.count +
          (entries.filter
            (fun e => !e.isDir && goEqualFold (pathExt e.name) ("." ++ ext))).length := by
  intro entries
  induction entries with
  | nil => intro st; simp [copyFilesLoop]
  | cons e rest ih =>
    intro st
    rw [copyFilesLoop, List.filter_cons]
    by_cases hdir : e.isDir
    · have hstep : copyFilesStep dstDir ext true true cf st e = st := by
        rw [copyFilesStep, if_pos hdir]
      rw [hstep, if_neg (by simp [hdir]), ih]
    · by_cases hext : goEqualFold (pathExt e.name) ("." ++ ext) = true
      · have hstep : copyFilesStep dstDir ext true true cf st e =
            { st with count := st.count + 1 } := by
          rw [copyFilesStep, if_neg hdir, if_neg (by simp [hext]),
            if_neg (by intro h; exact h.1 rfl), if_pos rfl]
        rw [hstep, if_pos (by simp [hdir, hext]), ih]
        simp only [List.length_cons]
        omega
      · have hstep : copyFilesStep dstDir ext true true cf st e = st := by
          rw [copyFilesStep, if_neg hdir, if_pos (by simp [hext])]
        rw [hstep, if_neg (by simp [hdir, hext]), ih]

/-- C10: the copy phase selects a file purely by its extension compared
case-insensitively (`strings.EqualFold` against `"." + ext`), in both the
flat and the clustering `copyFiles` and in both dry-run and real mode.
First conjunct: entries failing the extension test (or directories)
contribute nothing to a flat copy batch, in every mode.  Second conjunct: in
dry-run overwrite mode every selected file is counted, so a file is
considered if and only if it passes the case-insensitive extension test.
Third conjunct: the first pass of the clustering `copyFiles` keeps exactly
the entries passing the same case-insensitive test (those with a readable
EXIF date).  Last conjuncts: concrete cases, `IMG.ARW` and `img.Arw` are both
selected for the configured extension `arw` and `img.jpg` is not. -/
theorem claim10_extension_selection_case_insensitive
    (entries : List DirEntry) (dst : List String) (dstDir ext : String)
    (dry ow : Bool) (cf : String → Bool) (exifOf : String → Option GoTime) :
    copyFiles entries dst dstDir ext dry ow cf =
      copyFiles
        (entries.filter (fun e => !e.isDir && goEqualFold (pathExt e.name) ("." ++ ext)))
        dst dstDir ext dry ow cf ∧
    (copyFiles entries dst dstDir ext true true cf).count =
      (entries.filter
        (fun e => !e.isDir && goEqualFold (pathExt e.name) ("." ++ ext))).length ∧
    extractFilesWithDates entries exifOf ext =
      (entries.filter (fun e => !e.isDir && goEqualFold (pathExt e.name) ("." ++ ext))).filterMap
        (fun e => (exifOf e.name).map (fun d => ⟨e.name, d⟩)) ∧
    goEqualFold (pathExt "IMG.ARW") ("." ++ "arw") = true ∧
    goEqualFold (pathExt "img.Arw") ("." ++ "arw") = true ∧
    goEqualFold (pathExt "img.jpg") ("." ++ "arw") = false := by
  refine ⟨?_, ?_, ?_, by decide, by decide, by decide⟩
  · rw [copyFiles, copyFiles]
    exact copyFilesLoop_filter_inv dstDir ext dry ow cf entries ⟨0, dst, []⟩
  · rw [copyFiles]
    rw [copyFilesLoop_dry_ow_count dstDir ext cf entries ⟨0, dst, []⟩]
    simp
  · induction entries with
    | nil => rfl
    | cons e rest ih =>
      simp only [extractFilesWithDates, List.filterMap_cons, List.filter_cons] at ih ⊢
      by_cases hdir : e.isDir
      · simp [hdir, ih]
      · by_cases hext : goEqualFold (pathExt e.name) ("." ++ ext) = true
        · cases hexif : exifOf e.name with
          | none => simp [hdir, hext, hexif, ih]
          | some d => simp [hdir, hext, hexif, ih]
        · simp [hdir, hext, ih]

/-! ## Sidecar cleanup (`deleteZombieEditFiles`) -/

/-- A filesystem subtree as listed by `os.ReadDir`: plain files and
subdirectories with their own entries. -/
inductive FsEntry where
  | file (name : String)
  | dir (name : String) (entries : List FsEntry)

/-- The plain-file names of a directory listing, the names `os.Stat` can find
in that directory. -/
def fileNames (l : List FsEntry) : List String :=
  l.filterMap (fun e =>
    match e with
    | .file n => some n
    | .dir _ _ => none)

/-- Outcome of one sidecar entry in `deleteZombieEditFiles`. -/
inductive DZOutcome where
  | notSidecar
  | kept
  | deleted
  | erroredProbe (probeName : String)
  | erroredRemove (name : String)
deriving DecidableEq, Repr

/-- Outcome of the probe loop over `rawFileExtensions`. -/
inductive ProbeRes where
  | found
  | absent
  | failed (probeName : String)
deriving DecidableEq, Repr

/-- The probe loop of `deleteZombieEditFiles` (unnamed/part_005): for each raw
extension in order, `os.Stat` the expected primary name; success breaks with
a match, a failure other than "file does not exist" (oracle `statFails`)
aborts the entry with an error, otherwise the next extension is tried. -/
def probeRaw (statFails : String → Bool) (dirPath : String) (siblings : List String)
    (extTrimmed : String) : List String → ProbeRes
  | [] => .absent
  | rawFileExt :: rest =>
    let expectedRawFileName := extTrimmed ++ "." ++ rawFileExt
    if statFails (joinPath dirPath expectedRawFileName) then .failed expectedRawFileName
    else if expectedRawFileName ∈ siblings then .found
    else probeRaw statFails dirPath siblings extTrimmed rest

/-- The per-file goroutine body of `deleteZombieEditFiles`: skip names
without the sidecar suffix; probe for a corresponding primary file; keep the
sidecar when one is found, report a probe error without deleting, and
otherwise remove the sidecar (which may itself fail, oracle
`removeFails`). -/
def dzProcessFile (statFails removeFails : String → Bool) (editFileExtension : String)
    (rawFileExtensions : List String) (dirPath : String) (siblings : List String)
    (name : String) : DZOutcome :=
  if ¬ (goHasSuffix name ("." ++ editFileExtension) = true) then .notSidecar
  else
    match probeRaw statFails dirPath siblings (goTrimSuffix name ("." ++ editFileExtension))
        rawFileExtensions with
    | .failed p => .erroredProbe p
    | .found => .kept
    | .absent =>
      if removeFails (joinPath dirPath name) then .erroredRemove name
      else .deleted

/-- The contribution of one file outcome to the run result: the deletion
count, the error messages, and the deleted files as (directory, name)
pairs. -/
def dzOutcomeRes (dirPath name : String) : DZOutcome → Nat × List String × List (String × String)
  | .deleted => (1, [], [(dirPath, name)])
  | .erroredProbe p => (0, ["checking if " ++ p ++ " exists"], [])
  | .erroredRemove n => (0, ["removing zombie edit file " ++ n], [])
  | .notSidecar => (0, [], [])
  | .kept => (0, [], [])

/-- Fold the results of sibling entries: counts add (the atomic counter),
errors and deletions accumulate. -/
def dzCombine (a b : Nat × List String × List (String × String)) :
    Nat × List String × List (String × String) :=
  (a.1 + b.1, a.2.1 ++ b.2.1, a.2.2 ++ b.2.2)

/-- The per-entry body of `deleteZombieEditFiles`: a plain file is processed
by `dzProcessFile`; a subdirectory is processed recursively when
`isRecursive` is set (folding its counts, errors and deletions into the
parent) and skipped otherwise. -/
def dzEntry (statFails removeFails : String → Bool) (editFileExtension : String)
    (rawFileExtensions : List String) (isRecursive : Bool) :
    String → List String → FsEntry → Nat × List String × List (String × String)
  | dirPath, siblings, .file n =>
    dzOutcomeRes dirPath n
      (dzProcessFile statFails removeFails editFileExtension rawFileExtensions dirPath
        siblings n)
  | dirPath, _, .dir n sub =>
    if isRecursive then
      (sub.attach.map (fun x =>
        dzEntry statFails removeFails editFileExtension rawFileExtensions isRecursive
          (joinPath dirPath n) (fileNames sub) x.1)).foldl dzCombine (0, [], [])
    else (0, [], [])
termination_by _ _ e => sizeOf e
decreasing_by
  have h1 := List.sizeOf_lt_of_mem x.2
  simp only [FsEntry.dir.sizeOf_spec]
  omega

/-- Model of `deleteZombieEditFiles` (unnamed/part_005) on the listing
`entries` of directory `dirPath`: every entry is processed (the goroutines
are all awaited), and counts, aggregated errors and deletions are
returned. -/
def deleteZombieEditFiles (statFails removeFails : String → Bool)
    (editFileExtension dirPath : String) (rawFileExtensions : List String)
    (isRecursive : Bool) (entries : List FsEntry) :
    Nat × List String × List (String × String) :=
  (entries.map (dzEntry statFails removeFails editFileExtension rawFileExtensions
    isRecursive dirPath (fileNames entries))).foldl dzCombine (0, [], [])

theorem foldl_dzCombine_deleted :
    ∀ (l : List (Nat × List String × List (String × String)))
      (acc : Nat × List String × List (String × String)),
      (l.foldl dzCombine acc).2.2 = acc.2.2 ++ (l.map (fun r => r.2.2)).flatten := by
  intro l
  induction l with
  | nil => intro acc; simp
  | cons r l ih =>
    intro acc
    rw [List.foldl_cons, ih]
    simp [dzCombine]

theorem dzOutcomeRes_deleted (dirPath name : String) (o : DZOutcome)
    (pr : String × String) (h : pr ∈ (dzOutcomeRes dirPath name o).2.2) :
    pr = (dirPath, name) ∧ o = .deleted := by
  cases o <;> simp_all [dzOutcomeRes]

theorem probeRaw_not_absent (statFails : String → Bool) (dirPath : String)
    (siblings : List String) (extTrimmed : String) :
    ∀ exts : List String,
      (∃ ex ∈ exts, extTrimmed ++ "." ++ ex ∈ siblings) →
      probeRaw statFails dirPath siblings extTrimmed exts ≠ .absent := by
  intro exts
  induction exts with
  | nil => intro h; simp at h
  | cons rawExt rest ih =>
    intro h
    rw [probeRaw]
    by_cases hsf : statFails (joinPath dirPath (extTrimmed ++ "." ++ rawExt)) = true
    · rw [if_pos hsf]
      intro hcontra
      cases hcontra
    · rw [if_neg hsf]
      by_cases hmem : extTrimmed ++ "." ++ rawExt ∈ siblings
      · rw [if_pos hmem]
        intro hcontra
        cases hcontra
      · rw [if_neg hmem]
        apply ih
        rcases h with ⟨ex, hex, hsib⟩
        rcases List.mem_cons.mp hex with h1 | h1
        · exact absurd (h1 ▸ hsib) hmem
        · exact ⟨ex, h1, hsib⟩

theorem dzProcessFile_not_deleted (statFails removeFails : String → Bool)
    (editFileExtension : String) (rawFileExtensions : List String)
    (dirPath : String) (siblings : List String) (name : String)
    (hex : ∃ ex ∈ rawFileExtensions,
      goTrimSuffix name ("." ++ editFileExtension) ++ "." ++ ex ∈ siblings) :
    dzProcessFile statFails removeFails editFileExtension rawFileExtensions dirPath
      siblings name ≠ .deleted := by
  rw [dzProcessFile]
  by_cases hsuf : ¬ (goHasSuffix name ("." ++ editFileExtension) = true)
  · rw [if_pos hsuf]
    intro h; cases h
  · rw [if_neg hsuf]
    have hprobe := probeRaw_not_absent statFails dirPath siblings
      (goTrimSuffix name ("." ++ editFileExtension)) rawFileExtensions hex
    intro hcontra
    cases hres : probeRaw statFails dirPath siblings
        (goTrimSuffix name ("." ++ editFileExtension)) rawFileExtensions with
    | found => rw [hres] at hcontra; cases hcontra
    | failed p => rw [hres] at hcontra; cases hcontra
    | absent => exact hprobe hres

theorem joinPath_length (a b : String) : (joinPath a b).length = a.length + 1 + b.length := by
  simp [joinPath, String.length_append]
  rfl

theorem dzEntry_deleted_length (statFails removeFails : String → Bool)
    (editFileExtension : String) (rawFileExtensions : List String) (isRecursive : Bool) :
    ∀ (k : Nat) (e : FsEntry), sizeOf e ≤ k →
      ∀ (dirPath : String) (siblings : List String) (pr : String × String),
        pr ∈ (dzEntry statFails removeFails editFileExtension rawFileExtensions isRecursive
          dirPath siblings e).2.2 →
        dirPath.length ≤ pr.1.length := by
  intro k
  induction k with
  | zero =>
    intro e hsize
    exfalso
    cases e <;> simp_arith [FsEntry.file.sizeOf_spec, FsEntry.dir.sizeOf_spec] at hsize
  | succ k ih =>
    intro e hsize dirPath siblings pr hpr
    cases e with
    | file n =>
      rw [dzEntry] at hpr
      have := (dzOutcomeRes_deleted dirPath n _ pr hpr).1
      rw [this]
    | dir n sub =>
      rw [dzEntry] at hpr
      by_cases hrec : isRecursive = true
      · rw [if_pos hrec, foldl_dzCombine_deleted] at hpr
        simp only [List.nil_append, List.mem_flatten, List.mem_map] at hpr
        rcases hpr with ⟨ds, ⟨r, ⟨x, hx, hxr⟩, hrd⟩, hd⟩
        have hsize' : sizeOf x.1 ≤ k := by
          have h1 := List.sizeOf_lt_of_mem x.2
          have h2 : sizeOf (FsEntry.dir n sub) = 1 + sizeOf n + sizeOf sub := by
            simp [FsEntry.dir.sizeOf_spec]
          omega
        have hd' : pr ∈ (dzEntry statFails removeFails editFileExtension rawFileExtensions
            isRecursive (joinPath dirPath n) (fileNames sub) x.1).2.2 := by
          rw [← hxr] at hrd
          rw [hrd]
          exact hd
        have := ih x.1 hsize' (joinPath dirPath n) (fileNames sub) pr hd'
        have hlen := joinPath_length dirPath n
        omega
      · rw [if_neg hrec] at hpr
        simp at hpr

/-- C7 counterexample: the claim says the probe for a corresponding primary
file matches extensions case-insensitively, so a sidecar with a
case-insensitively matching primary is never deleted.  In the code the probe
name is built literally as `base + "." + rawExt` and checked for existence,
so for the directory `{x.xmp, x.ARW}` with configured primary extension
`arw` the probe looks only for `x.arw`, finds nothing, and the sidecar is
deleted — even though `x.ARW` matches `arw` case-insensitively
(`goEqualFold (pathExt "x.ARW") ".arw"` holds). -/
theorem claim7_case_insensitive_counterexample :
    dzProcessFile (fun _ => false) (fun _ => false) "xmp" ["arw"] "d"
        ["x.xmp", "x.ARW"] "x.xmp" = .deleted ∧
    goEqualFold (pathExt "x.ARW") ("." ++ "arw") = true := by
  refine ⟨?_, by decide⟩
  decide

/-- C7 (amended): whenever a sidecar file has a corresponding primary file in
the same directory under exact (case-sensitive) name matching — the base
name with the sidecar extension stripped, a dot, and one of the configured
primary extensions, compared literally — the sidecar cleanup never deletes
that sidecar: the pair (directory, name) is not among the deletions of the
whole (possibly recursive) run. -/
theorem claim7_exact_primary_never_deleted (statFails removeFails : String → Bool)
    (editFileExtension dirPath : String) (rawFileExtensions : List String)
    (isRecursive : Bool) (entries : List FsEntry) (name : String)
    (hex : ∃ ex ∈ rawFileExtensions,
      goTrimSuffix name ("." ++ editFileExtension) ++ "." ++ ex ∈ fileNames entries) :
    (dirPath, name) ∉
      (deleteZombieEditFiles statFails removeFails editFileExtension dirPath
        rawFileExtensions isRecursive entries).2.2 := by
  intro hmem
  rw [deleteZombieEditFiles, foldl_dzCombine_deleted] at hmem
  simp only [List.nil_append, List.mem_flatten, List.mem_map] at hmem
  rcases hmem with ⟨ds, ⟨r, ⟨e, he, her⟩, hrd⟩, hd⟩
  have hd' : (dirPath, name) ∈ (dzEntry statFails removeFails editFileExtension
      rawFileExtensions isRecursive dirPath (fileNames entries) e).2.2 := by
    rw [her, hrd]
    exact hd
  cases e with
  | file n =>
    rw [dzEntry] at hd'
    have hout := dzOutcomeRes_deleted dirPath n _ _ hd'
    have hn : n = name := by
      have := hout.1
      simp only [Prod.mk.injEq] at this
      exact this.2.symm
    subst hn
    exact dzProcessFile_not_deleted statFails removeFails editFileExtension
      rawFileExtensions dirPath (fileNames entries) n hex hout.2
  | dir n sub =>
    have hlen := dzEntry_deleted_length statFails removeFails editFileExtension
      rawFileExtensions isRecursive (sizeOf (FsEntry.dir n sub)) (FsEntry.dir n sub)
      le_rfl dirPath (fileNames entries) (dirPath, name) hd'
    rw [dzEntry] at hd'
    by_cases hrec : isRecursive = true
    · rw [if_pos hrec, foldl_dzCombine_deleted] at hd'
      simp only [List.nil_append, List.mem_flatten, List.mem_map] at hd'
      rcases hd' with ⟨ds2, ⟨r2, ⟨x, hx, hxr⟩, hrd2⟩, hd2⟩
      have hd2' : (dirPath, name) ∈ (dzEntry statFails removeFails editFileExtension
          rawFileExtensions isRecursive (joinPath dirPath n) (fileNames sub) x.1).2.2 := by
        rw [hxr, hrd2]
        exact hd2
      have hsub := dzEntry_deleted_length statFails removeFails editFileExtension
        rawFileExtensions isRecursive (sizeOf x.1) x.1 le_rfl (joinPath dirPath n)
        (fileNames sub) (dirPath, name) hd2'
      have hjl := joinPath_length dirPath n
      simp only at hsub
      omega
    · rw [if_neg hrec] at hd'
      simp at hd'

/-- Witness for the amended C7: the sidecar `x.xmp` with exact primary
`x.arw` present in the same directory is not deleted, even with a
subdirectory in the tree and recursion enabled. -/
theorem claim7_exact_primary_never_deleted_witness :
    ("d", "x.xmp") ∉
      (deleteZombieEditFiles (fun _ => false) (fun _ => false) "xmp" "d" ["arw", "raw"]
        true [.file "x.xmp", .file "x.arw", .dir "sub" [.file "y.xmp"]]).2.2 :=
  claim7_exact_primary_never_deleted (fun _ => false) (fun _ => false) "xmp" "d"
    ["arw", "raw"] true [.file "x.xmp", .file "x.arw", .dir "sub" [.file "y.xmp"]] "x.xmp"
    ⟨"arw", by decide, by decide⟩

theorem probeRaw_fails_at (statFails : String → Bool) (dirPath : String)
    (siblings : List String) (extTrimmed : String) :
    ∀ (pre : List String) (bad : String) (rest : List String),
      (∀ p ∈ pre, statFails (joinPath dirPath (extTrimmed ++ "." ++ p)) = false ∧
        extTrimmed ++ "." ++ p ∉ siblings) →
      statFails (joinPath dirPath (extTrimmed ++ "." ++ bad)) = true →
      probeRaw statFails dirPath siblings extTrimmed (pre ++ bad :: rest) =
        .failed (extTrimmed ++ "." ++ bad) := by
  intro pre
  induction pre with
  | nil =>
    intro bad rest _ hbad
    rw [List.nil_append, probeRaw, if_pos hbad]
  | cons p pre ih =>
    intro bad rest hpre hbad
    have hp := hpre p (List.mem_cons_self _ _)
    rw [List.cons_append, probeRaw, if_neg (by simp [hp.1]), if_neg hp.2]
    exact ih bad rest (fun q hq => hpre q (List.mem_cons_of_mem _ hq)) hbad

/-- C9: during sidecar cleanup, when the probe for a corresponding primary
file fails with a filesystem error other than "file does not exist" (oracle
`statFails`; earlier extensions in the list neither matched nor failed), the
entry reports a probe error for that sidecar and the sidecar is not deleted;
the probe failure is never treated as "no corresponding primary file". -/
theorem claim9_probe_error_reported_not_deleted (statFails removeFails : String → Bool)
    (editFileExtension dirPath name : String) (siblings : List String)
    (pre : List String) (bad : String) (rest : List String)
    (hsuffix : goHasSuffix name ("." ++ editFileExtension) = true)
    (hpre : ∀ p ∈ pre,
      statFails (joinPath dirPath
        (goTrimSuffix name ("." ++ editFileExtension) ++ "." ++ p)) = false ∧
      goTrimSuffix name ("." ++ editFileExtension) ++ "." ++ p ∉ siblings)
    (hbad : statFails (joinPath dirPath
      (goTrimSuffix name ("." ++ editFileExtension) ++ "." ++ bad)) = true) :
    dzProcessFile statFails removeFails editFileExtension (pre ++ bad :: rest) dirPath
        siblings name =
      .erroredProbe (goTrimSuffix name ("." ++ editFileExtension) ++ "." ++ bad) ∧
    dzProcessFile statFails removeFails editFileExtension (pre ++ bad :: rest) dirPath
        siblings name ≠ .deleted := by
  have hprobe := probeRaw_fails_at statFails dirPath siblings
    (goTrimSuffix name ("." ++ editFileExtension)) pre bad rest hpre hbad
  constructor
  · rw [dzProcessFile, if_neg (by simp [hsuffix]), hprobe]
  · rw [dzProcessFile, if_neg (by simp [hsuffix]), hprobe]
    intro h
    cases h

/-- Witness for C9: sidecar `x.xmp`, primary extensions `["arw", "raw"]`, the
probe for `x.arw` does not exist and the probe for `x.raw` fails with a
filesystem error: the entry errors and the sidecar is not deleted. -/
theorem claim9_probe_error_reported_not_deleted_witness :
    dzProcessFile (fun p => p == "d/x.raw") (fun _ => false) "xmp" (["arw"] ++ "raw" :: [])
        "d" ["x.xmp"] "x.xmp" =
      .erroredProbe (goTrimSuffix "x.xmp" ("." ++ "xmp") ++ "." ++ "raw") ∧
    dzProcessFile (fun p => p == "d/x.raw") (fun _ => false) "xmp" (["arw"] ++ "raw" :: [])
        "d" ["x.xmp"] "x.xmp" ≠ .deleted :=
  claim9_probe_error_reported_not_deleted (fun p => p == "d/x.raw") (fun _ => false)
    "xmp" "d" "x.xmp" ["x.xmp"] ["arw"] "raw" [] (by decide)
    (by intro p hp
        simp only [List.mem_singleton] at hp
        subst hp
        exact ⟨by decide, by decide⟩)
    (by decide)
